import Mathlib

/-!
Verification development for the lightweight-tunnel repository.

Shallow embedding of the Go sources:
  * `pkg/rawsocket/rawsocket.go`  — IPv4/TCP header construction, Internet
    checksum, `SendPacket`, `RecvPacket`,
  * `pkg/iptables/iptables.go`    — the firewall rule coordinator,
  * `pkg/tunnel/mtu_discovery.go` — binary-search path-MTU discovery,
  * the FEC package (Reed–Solomon block codec wrapper).

Bytes are modelled as `Nat` with explicit `% 256` / side conditions where the
Go code uses `uint8`/`uint16`/`uint32`; byte strings are `List Nat`.
-/

/-! ## Byte-level helpers shared by the rawsocket embedding -/

/-- Big-endian 16-bit serialization, `binary.BigEndian.PutUint16`. -/
def u16 (n : Nat) : List Nat := [n / 256 % 256, n % 256]

/-- Big-endian 32-bit serialization, `binary.BigEndian.PutUint32`. -/
def u32 (n : Nat) : List Nat :=
  [n / 16777216 % 256, n / 65536 % 256, n / 256 % 256, n % 256]

/-- The 16-bit big-endian words of a byte string, an odd trailing byte padded
high, exactly as the summation loop of `CalculateChecksum` consumes them
(`sum += uint32(binary.BigEndian.Uint16(data[i:i+2]))` for the pairs, then
`sum += uint32(data[len(data)-1]) << 8` for a leftover odd byte). -/
def words : List Nat → List Nat
  | a :: b :: rest => (a * 256 + b) :: words rest
  | [a] => [a * 256]
  | [] => []

/-- The running `uint32` accumulator of `CalculateChecksum`: the word values
are added modulo `2^32`. -/
def sum32 (ws : List Nat) : Nat :=
  ws.foldl (fun a w => (a + w) % 4294967296) 0

/-- The folding loop `for sum>>16 != 0 { sum = (sum & 0xFFFF) + (sum >> 16) }`
of `CalculateChecksum` (`x & 0xFFFF = x % 2^16`, `x >> 16 = x / 2^16`). -/
def fold16 (s : Nat) : Nat :=
  if s < 65536 then s else fold16 (s % 65536 + s / 65536)
termination_by s
decreasing_by omega

/-- Function `CalculateChecksum` of `rawsocket.go`: one's-complement Internet checksum.
The final `^uint16(sum)` is `65535 - sum` for `sum ≤ 65535`. -/
def CalculateChecksum (data : List Nat) : Nat :=
  65535 - fold16 (sum32 (words data))

/-- The verification predicate of the claim: the one's-complement sum over a
byte string (including any stored checksum field) folds to `0xFFFF`. -/
def ChecksumOK (data : List Nat) : Prop :=
  fold16 (sum32 (words data)) = 65535

/-- Model of `copy(header[i:i+4], ip.To4())`: the first four bytes of an address,
zero-filled if fewer are available. -/
def to4 (ip : List Nat) : List Nat :=
  ip.take 4 ++ List.replicate (4 - ip.length) 0

/-- Overwrite two bytes at offset `i` with a big-endian 16-bit value, the
model of `binary.BigEndian.PutUint16(buf[i:i+2], v)` on an existing buffer. -/
def setWord16 (l : List Nat) (i v : Nat) : List Nat :=
  l.take i ++ u16 v ++ l.drop (i + 2)

/-! ## rawsocket.go: header builders -/

/-- Function `BuildIPHeader` of `rawsocket.go`: a 20-byte IPv4 header.  Version/IHL
byte `0x45`, TOS 0, total length `20+payloadLen` (as `uint16`), id `12345`,
flags/fragment `0x4000` (DF), TTL 64, the given protocol, then the header
checksum computed over the header with a zeroed checksum field and stored
at offset 10. -/
def BuildIPHeader (srcIP dstIP : List Nat) (protocol payloadLen : Nat) : List Nat :=
  let totalLen := (20 + payloadLen) % 65536
  let h0 := [0x45, 0] ++ u16 totalLen ++ u16 12345 ++ u16 0x4000 ++
    [64, protocol % 256] ++ [0, 0] ++ to4 srcIP ++ to4 dstIP
  setWord16 h0 10 (CalculateChecksum h0)

/-- The padded options of `BuildTCPHeader`: options extended with zero bytes
to a 4-byte boundary. -/
def padOptions (options : List Nat) : List Nat :=
  options ++ List.replicate ((4 - options.length % 4) % 4) 0

/-- Function `BuildTCPHeader` of `rawsocket.go`: ports, seq, ack, the data-offset
byte `uint8(headerLen/4) << 4` (as `uint8` arithmetic), flags, window,
zeroed checksum and urgent pointer, then the padded options. -/
def BuildTCPHeader (srcPort dstPort seq ack flags window : Nat)
    (options : List Nat) : List Nat :=
  let opts := padOptions options
  let headerLen := 20 + opts.length
  let dataOffset := headerLen / 4 % 256
  u16 srcPort ++ u16 dstPort ++ u32 seq ++ u32 ack ++
    [dataOffset * 16 % 256, flags % 256] ++ u16 window ++ [0, 0] ++ [0, 0] ++ opts

/-- The pseudo header of `CalculateTCPChecksum`: source and destination
addresses, a zero byte, protocol 6, and the 16-bit TCP length. -/
def pseudoHeader (srcIP dstIP : List Nat) (tcpLen : Nat) : List Nat :=
  to4 srcIP ++ to4 dstIP ++ [0, 6] ++ u16 (tcpLen % 65536)

/-- Function `CalculateTCPChecksum` of `rawsocket.go`: the Internet checksum over
pseudo header + TCP header + payload. -/
def CalculateTCPChecksum (srcIP dstIP tcpHeader payload : List Nat) : Nat :=
  CalculateChecksum (pseudoHeader srcIP dstIP (tcpHeader.length + payload.length)
    ++ tcpHeader ++ payload)

/-- The byte string assembled and handed to `sendto` by
`RawSocket.SendPacket`: TCP header built with window 65535, its checksum
stored at offset 16, then the IP header over protocol TCP, concatenated with
the payload.  (The `syscall.Sendto` I/O itself is outside the model.) -/
def SendPacket (srcIP : List Nat) (srcPort : Nat) (dstIP : List Nat) (dstPort : Nat)
    (seq ack flags : Nat) (tcpOptions payload : List Nat) : List Nat :=
  let tcpHeader0 := BuildTCPHeader srcPort dstPort seq ack flags 65535 tcpOptions
  let cks := CalculateTCPChecksum srcIP dstIP tcpHeader0 payload
  let tcpHeader := setWord16 tcpHeader0 16 cks
  let ipHeader := BuildIPHeader srcIP dstIP 6 (tcpHeader.length + payload.length)
  ipHeader ++ tcpHeader ++ payload

/-! ## Checksum verification lemmas -/

theorem fold16_lt (s : Nat) : fold16 s < 65536 := by
  induction s using fold16.induct with
  | case1 s h => rw [fold16]; simp [h]
  | case2 s h ih => rw [fold16]; simp only [h, if_false]; exact ih

theorem fold16_mod (s : Nat) : fold16 s % 65535 = s % 65535 := by
  induction s using fold16.induct with
  | case1 s h => rw [fold16]; simp [h]
  | case2 s h ih => rw [fold16]; simp only [h, if_false]; omega

theorem fold16_pos (s : Nat) (hs : 0 < s) : 0 < fold16 s := by
  induction s using fold16.induct with
  | case1 s h => rw [fold16]; simpa [h] using hs
  | case2 s h ih =>
    rw [fold16]; simp only [h, if_false]
    exact ih (by omega)

/-- The heart of checksum verification: adding the complement of the folded
sum back into the sum makes the fold land exactly on `0xFFFF`. -/
theorem fold16_round (S : Nat) (hpos : 0 < S) :
    fold16 (S + (65535 - fold16 S)) = 65535 := by
  have h1 := fold16_lt S
  have h2 := fold16_mod S
  have h3 := fold16_lt (S + (65535 - fold16 S))
  have h4 := fold16_mod (S + (65535 - fold16 S))
  have h5 := fold16_pos (S + (65535 - fold16 S)) (by omega)
  omega

theorem words_append (l1 l2 : List Nat) (h : l1.length % 2 = 0) :
    words (l1 ++ l2) = words l1 ++ words l2 := by
  induction l1 using words.induct with
  | case1 a b rest ih =>
    have h2 : rest.length % 2 = 0 := by simp at h; omega
    simp only [List.cons_append, words, List.append_eq]
    rw [ih h2]
  | case2 a => simp at h
  | case3 => simp [words]

theorem words_le (l : List Nat) (hl : ∀ b ∈ l, b < 256) :
    ∀ w ∈ words l, w ≤ 65535 := by
  induction l using words.induct with
  | case1 a b rest ih =>
    intro w hw
    simp only [words, List.mem_cons] at hw
    rcases hw with rfl | hw
    · have ha := hl a (by simp)
      have hb := hl b (by simp)
      omega
    · exact ih (fun x hx => hl x (by simp [hx])) w hw
  | case2 a =>
    intro w hw
    simp only [words, List.mem_singleton] at hw
    have := hl a (by simp)
    omega
  | case3 => intro w hw; simp [words] at hw

theorem words_length (l : List Nat) : (words l).length ≤ (l.length + 1) / 2 := by
  induction l using words.induct with
  | case1 a b rest ih => simp only [words, List.length_cons]; omega
  | case2 a => simp [words]
  | case3 => simp [words]

theorem sum32_eq_sum (ws : List Nat) (h : ws.sum < 4294967296) :
    sum32 ws = ws.sum := by
  have key : ∀ (l : List Nat) (a : Nat), a + l.sum < 4294967296 →
      l.foldl (fun x w => (x + w) % 4294967296) a = a + l.sum := by
    intro l
    induction l with
    | nil => intro a _; simp
    | cons w t ih =>
      intro a ha
      simp only [List.foldl_cons, List.sum_cons] at *
      rw [Nat.mod_eq_of_lt (by omega), ih (a + w) (by omega)]
      omega
  simpa using key ws 0 (by simpa using h)

theorem sum_words_le (l : List Nat) (hl : ∀ b ∈ l, b < 256) :
    (words l).sum ≤ 65535 * ((l.length + 1) / 2) := by
  have h1 : (words l).sum ≤ (words l).length * 65535 :=
    List.sum_le_card_nsmul _ _ (words_le l hl)
  have h2 := words_length l
  calc (words l).sum ≤ (words l).length * 65535 := h1
    _ ≤ ((l.length + 1) / 2) * 65535 := Nat.mul_le_mul_right _ h2
    _ = 65535 * ((l.length + 1) / 2) := Nat.mul_comm _ _

/-- Inserting the computed checksum into the (even-offset, zeroed) checksum
slot of a byte string makes the Internet checksum verify, provided the
string is small enough that the `uint32` accumulator cannot wrap and its
word sum is positive. -/
theorem checksum_insert_ok (pre post : List Nat) (hpre : pre.length % 2 = 0)
    (hbytes : ∀ b ∈ pre ++ [0, 0] ++ post, b < 256)
    (hsize : pre.length + 2 + post.length ≤ 131070)
    (hpos : 0 < (words (pre ++ [0, 0] ++ post)).sum) :
    ChecksumOK (pre ++ u16 (CalculateChecksum (pre ++ [0, 0] ++ post)) ++ post) := by
  set S0 := (words (pre ++ [0, 0] ++ post)).sum with hS0
  have hbound : S0 ≤ 65535 * 65536 := by
    have := sum_words_le (pre ++ [0, 0] ++ post) hbytes
    have hlen : (pre ++ [0, 0] ++ post).length = pre.length + 2 + post.length := by
      simp only [List.length_append, List.length_cons, List.length_nil]
    rw [hlen] at this
    have : S0 ≤ 65535 * ((131070 + 1) / 2) :=
      le_trans this (Nat.mul_le_mul_left _ (by omega))
    omega
  have hs32 : sum32 (words (pre ++ [0, 0] ++ post)) = S0 :=
    sum32_eq_sum _ (by omega)
  set c := CalculateChecksum (pre ++ [0, 0] ++ post) with hc
  have hcval : c = 65535 - fold16 S0 := by
    rw [hc, CalculateChecksum, hs32]
  have hcle : c ≤ 65535 := by
    have := fold16_lt S0
    omega
  -- word decomposition of the two strings
  have hzero : words (pre ++ [0, 0] ++ post) = words pre ++ [0] ++ words post := by
    rw [List.append_assoc, words_append pre _ hpre,
      words_append [0, 0] post (by simp)]
    simp [words]
  have hwu : words (u16 c) = [c] := by
    have h1 : c / 256 % 256 = c / 256 := Nat.mod_eq_of_lt (by omega)
    simp only [u16, words, h1]
    congr 1
    omega
  have hfull : words (pre ++ u16 c ++ post) = words pre ++ [c] ++ words post := by
    rw [List.append_assoc, words_append pre _ hpre,
      words_append (u16 c) post (by simp [u16]), hwu]
    simp
  have hsum1 : (words (pre ++ u16 c ++ post)).sum = S0 + c := by
    rw [hfull, hS0, hzero]
    simp only [List.sum_append, List.sum_cons, List.sum_nil]
    omega
  have hbytes2 : ∀ b ∈ pre ++ u16 c ++ post, b < 256 := by
    intro b hb
    simp only [List.mem_append] at hb
    rcases hb with (hb | hb) | hb
    · exact hbytes b (by simp [hb])
    · simp only [u16, List.mem_cons, List.mem_singleton] at hb
      rcases hb with rfl | rfl | h
      · omega
      · omega
      · simp at h
    · exact hbytes b (by simp [hb])
  have hs32full : sum32 (words (pre ++ u16 c ++ post)) = S0 + c := by
    rw [sum32_eq_sum _ (by rw [hsum1]; omega), hsum1]
  rw [ChecksumOK, hs32full, hcval]
  exact fold16_round S0 (by omega)

theorem words_sum_pos (l : List Nat) (b : Nat) (hb : b ∈ l) (hbpos : 0 < b) :
    0 < (words l).sum := by
  induction l using words.induct with
  | case1 x y rest ih =>
    simp only [List.mem_cons] at hb
    simp only [words, List.sum_cons]
    rcases hb with rfl | rfl | hb
    · omega
    · omega
    · have := ih hb
      omega
  | case2 x =>
    simp only [List.mem_singleton] at hb
    subst hb
    simp only [words, List.sum_cons, List.sum_nil]
    omega
  | case3 => simp at hb

theorem u16_lt (n : Nat) : ∀ b ∈ u16 n, b < 256 := by
  intro b hb
  simp only [u16, List.mem_cons, List.mem_singleton] at hb
  rcases hb with rfl | rfl | h
  · omega
  · omega
  · simp at h

theorem u32_lt (n : Nat) : ∀ b ∈ u32 n, b < 256 := by
  intro b hb
  simp only [u32, List.mem_cons, List.mem_singleton] at hb
  rcases hb with rfl | rfl | rfl | rfl | h
  · omega
  · omega
  · omega
  · omega
  · simp at h

theorem to4_length (ip : List Nat) : (to4 ip).length = 4 := by
  simp only [to4, List.length_append, List.length_take, List.length_replicate]
  omega

theorem to4_lt (ip : List Nat) (h : ∀ b ∈ ip, b < 256) : ∀ b ∈ to4 ip, b < 256 := by
  intro b hb
  simp only [to4, List.mem_append, List.mem_replicate] at hb
  rcases hb with hb | hb
  · exact h b (List.mem_of_mem_take hb)
  · omega

theorem padOptions_lt (options : List Nat) (h : ∀ b ∈ options, b < 256) :
    ∀ b ∈ padOptions options, b < 256 := by
  intro b hb
  simp only [padOptions, List.mem_append, List.mem_replicate] at hb
  rcases hb with hb | hb
  · exact h b hb
  · omega

theorem padOptions_length_mod (options : List Nat) :
    (padOptions options).length % 4 = 0 := by
  simp only [padOptions, List.length_append, List.length_replicate]
  omega

theorem padOptions_length_le (options : List Nat) :
    (padOptions options).length ≤ options.length + 3 := by
  simp only [padOptions, List.length_append, List.length_replicate]
  omega


theorem setWord16_insert (pre post : List Nat) (v : Nat) :
    setWord16 (pre ++ [0, 0] ++ post) pre.length v = pre ++ u16 v ++ post := by
  unfold setWord16
  have h1 : (pre ++ [0, 0] ++ post).take pre.length = pre := by
    rw [List.append_assoc, List.take_left]
  have h2 : (pre ++ [0, 0] ++ post).drop (pre.length + 2) = post := by
    have e : pre.length + 2 = (pre ++ [0, 0]).length := by simp
    rw [e, List.drop_left]
  rw [h1, h2]

theorem setWord16_length (l : List Nat) (i v : Nat) (h : i + 2 ≤ l.length) :
    (setWord16 l i v).length = l.length := by
  simp only [setWord16, List.length_append, List.length_take, List.length_drop, u16,
    List.length_cons, List.length_nil]
  omega

theorem BuildIPHeader_length (src dst : List Nat) (protocol payloadLen : Nat) :
    (BuildIPHeader src dst protocol payloadLen).length = 20 := by
  unfold BuildIPHeader setWord16
  simp only [List.length_append, List.length_take, List.length_drop, List.length_cons,
    List.length_nil, u16, to4_length]
  omega

/-- Claim C3.  Every IPv4 header produced by `BuildIPHeader` verifies under
the Internet checksum: the one's-complement sum over the final 20-byte
header, including the stored checksum field, folds to `0xFFFF`.  And for
every TCP segment assembled by `SendPacket` (the bytes after the 20-byte IP
header), the stored TCP checksum verifies over pseudo-header + TCP header +
payload.  The byte-range hypotheses say the inputs are genuine bytes, and
the length bounds are those satisfied by any real IPv4 packet (total length
is a 16-bit field; TCP options fit the 60-byte header limit). -/
theorem claim_C3_checksums_verify (src dst : List Nat) (protocol payloadLen : Nat)
    (srcPort dstPort seq ack flags : Nat) (opts payload : List Nat)
    (hsrc : ∀ b ∈ src, b < 256) (hdst : ∀ b ∈ dst, b < 256)
    (hopts : ∀ b ∈ opts, b < 256) (hpayload : ∀ b ∈ payload, b < 256)
    (hplen : payload.length ≤ 65535) (holen : opts.length ≤ 40) :
    ChecksumOK (BuildIPHeader src dst protocol payloadLen) ∧
    ChecksumOK (pseudoHeader src dst
        ((SendPacket src srcPort dst dstPort seq ack flags opts payload).drop 20).length
      ++ (SendPacket src srcPort dst dstPort seq ack flags opts payload).drop 20) := by
  constructor
  · -- IP header checksum
    have hstep : BuildIPHeader src dst protocol payloadLen =
        setWord16 ([0x45, 0] ++ u16 ((20 + payloadLen) % 65536) ++ u16 12345 ++
            u16 0x4000 ++ [64, protocol % 256] ++ [0, 0] ++ to4 src ++ to4 dst) 10
          (CalculateChecksum ([0x45, 0] ++ u16 ((20 + payloadLen) % 65536) ++ u16 12345 ++
            u16 0x4000 ++ [64, protocol % 256] ++ [0, 0] ++ to4 src ++ to4 dst)) := rfl
    have hassoc : ([0x45, 0] ++ u16 ((20 + payloadLen) % 65536) ++ u16 12345 ++
        u16 0x4000 ++ [64, protocol % 256] ++ [0, 0] ++ to4 src ++ to4 dst : List Nat) =
        ([0x45, 0] ++ u16 ((20 + payloadLen) % 65536) ++ u16 12345 ++ u16 0x4000 ++
          [64, protocol % 256]) ++ [0, 0] ++ (to4 src ++ to4 dst) := by
      simp [List.append_assoc]
    have h10 : (10 : Nat) =
        ([0x45, 0] ++ u16 ((20 + payloadLen) % 65536) ++ u16 12345 ++ u16 0x4000 ++
          [64, protocol % 256] : List Nat).length := by
      simp [u16]
    rw [hstep, hassoc, h10, setWord16_insert]
    apply checksum_insert_ok
    · simp [u16]
    · intro b hb
      simp only [List.append_assoc, List.mem_append, List.mem_cons, List.not_mem_nil,
        or_false] at hb
      casesm* _ ∨ _
      all_goals first
        | omega
        | exact u16_lt _ b (by assumption)
        | exact to4_lt _ hsrc b (by assumption)
        | exact to4_lt _ hdst b (by assumption)
    · simp [u16, to4_length]
    · apply words_sum_pos _ 0x45 _ (by omega)
      simp
  · -- TCP checksum of the sent segment
    set T0 := BuildTCPHeader srcPort dstPort seq ack flags 65535 opts with hT0
    set A := u16 srcPort ++ u16 dstPort ++ u32 seq ++ u32 ack ++
      [(20 + (padOptions opts).length) / 4 % 256 * 16 % 256, flags % 256] ++
      u16 65535 with hA
    set B := ([0, 0] ++ padOptions opts : List Nat) with hB
    have hAlen : A.length = 16 := by simp [hA, u16, u32]
    have hT0split : T0 = A ++ [0, 0] ++ B := by
      rw [hT0, hA, hB]
      unfold BuildTCPHeader
      simp [List.append_assoc]
    set c := CalculateTCPChecksum src dst T0 payload with hc
    have hT : setWord16 T0 16 c = A ++ u16 c ++ B := by
      rw [hT0split, show (16 : Nat) = A.length from hAlen.symm, setWord16_insert]
    have hTlen : (setWord16 T0 16 c).length = T0.length := by
      apply setWord16_length
      rw [hT0split]
      simp only [List.length_append, hAlen, List.length_cons, List.length_nil]
      omega
    have hdrop : (SendPacket src srcPort dst dstPort seq ack flags opts payload).drop 20 =
        setWord16 T0 16 c ++ payload := by
      show (BuildIPHeader src dst 6 ((setWord16 T0 16 c).length + payload.length) ++
        setWord16 T0 16 c ++ payload).drop 20 = setWord16 T0 16 c ++ payload
      rw [List.append_assoc,
        show (20 : Nat) = (BuildIPHeader src dst 6
          ((setWord16 T0 16 c).length + payload.length)).length from
          (BuildIPHeader_length _ _ _ _).symm,
        List.drop_left]
    rw [hdrop]
    have hlen2 : (setWord16 T0 16 c ++ payload).length = T0.length + payload.length := by
      simp [hTlen]
    rw [hlen2]
    have hcval : c = CalculateChecksum ((pseudoHeader src dst (T0.length + payload.length)
        ++ A) ++ [0, 0] ++ (B ++ payload)) := by
      rw [hc]
      unfold CalculateTCPChecksum
      congr 1
      rw [hT0split]
      simp [List.append_assoc]
    have hgoal : pseudoHeader src dst (T0.length + payload.length) ++
        (setWord16 T0 16 c ++ payload) =
        (pseudoHeader src dst (T0.length + payload.length) ++ A) ++ u16 c ++
        (B ++ payload) := by
      rw [hT]
      simp [List.append_assoc]
    rw [hgoal, hcval]
    apply checksum_insert_ok
    · simp [pseudoHeader, u16, to4_length, hAlen]
    · intro b hb
      simp only [pseudoHeader, hA, hB, List.append_assoc, List.mem_append, List.mem_cons,
        List.not_mem_nil, or_false] at hb
      casesm* _ ∨ _
      all_goals first
        | omega
        | exact u16_lt _ b (by assumption)
        | exact u32_lt _ b (by assumption)
        | exact to4_lt _ hsrc b (by assumption)
        | exact to4_lt _ hdst b (by assumption)
        | exact padOptions_lt _ hopts b (by assumption)
        | exact hpayload b (by assumption)
    · have h1 : (pseudoHeader src dst (T0.length + payload.length)).length = 12 := by
        simp [pseudoHeader, u16, to4_length]
      have h2 := padOptions_length_le opts
      simp only [List.length_append, h1, hAlen, hB, List.length_cons, List.length_nil]
      omega
    · apply words_sum_pos _ 6 _ (by omega)
      simp [pseudoHeader]

theorem BuildTCPHeader_length (srcPort dstPort seq ack flags window : Nat)
    (options : List Nat) :
    (BuildTCPHeader srcPort dstPort seq ack flags window options).length =
      20 + (padOptions options).length := by
  unfold BuildTCPHeader
  simp only [List.length_append, List.length_cons, List.length_nil, u16, u32]

/-- The 4-bit data-offset field of a TCP header: the high nibble of byte 12. -/
def dataOffsetField (tcpHeader : List Nat) : Nat :=
  tcpHeader.getD 12 0 / 16

/-- Counterexample to claim C8 as stated: for a 44-byte options argument the
stored data-offset field is 0, not the actual header length 64 divided by 4
(the `uint8` value `16 << 4` wraps to 0), so the claimed equality does not
hold for every options argument. -/
theorem claim_C8_counterexample :
    dataOffsetField (BuildTCPHeader 1 2 3 4 5 65535 (List.replicate 44 0)) ≠
      (20 + (padOptions (List.replicate 44 0)).length) / 4 := by decide

/-- Claim C8, amended.  For every packet emitted by `SendPacket`: the IPv4
header is exactly 20 bytes (the TCP header starts at offset 20 and the total
size is `20 + tcpHeaderLen + payloadLen`) with the DF flag set (flags word
`0x4000`), TTL 64 and protocol TCP; the TCP header carries receiver window
65535 and options padded to a 4-byte boundary; and — the amendment — for
every options argument of at most 40 bytes (so that the 4-bit field cannot
wrap) the data-offset field equals the actual header length, 20 bytes plus
padded options, divided by 4. -/
theorem claim_C8_sendPacket_headers (src dst : List Nat)
    (srcPort dstPort seq ack flags : Nat) (opts payload : List Nat) :
    (SendPacket src srcPort dst dstPort seq ack flags opts payload).length =
        20 + (20 + (padOptions opts).length) + payload.length ∧
    (SendPacket src srcPort dst dstPort seq ack flags opts payload).getD 6 0 = 0x40 ∧
    (SendPacket src srcPort dst dstPort seq ack flags opts payload).getD 7 0 = 0 ∧
    (SendPacket src srcPort dst dstPort seq ack flags opts payload).getD 8 0 = 64 ∧
    (SendPacket src srcPort dst dstPort seq ack flags opts payload).getD 9 0 = 6 ∧
    (padOptions opts).length % 4 = 0 ∧
    ((SendPacket src srcPort dst dstPort seq ack flags opts payload).drop 20).getD 14 0
      = 255 ∧
    ((SendPacket src srcPort dst dstPort seq ack flags opts payload).drop 20).getD 15 0
      = 255 ∧
    (opts.length ≤ 40 →
      dataOffsetField ((SendPacket src srcPort dst dstPort seq ack flags opts payload).drop 20)
        = (20 + (padOptions opts).length) / 4) := by
  set T0 := BuildTCPHeader srcPort dstPort seq ack flags 65535 opts with hT0
  set c := CalculateTCPChecksum src dst T0 payload with hc
  have hTlen : (setWord16 T0 16 c).length = T0.length := by
    apply setWord16_length
    rw [hT0, BuildTCPHeader_length]
    omega
  have hT0len : T0.length = 20 + (padOptions opts).length := by
    rw [hT0, BuildTCPHeader_length]
  have hpkt : SendPacket src srcPort dst dstPort seq ack flags opts payload =
      BuildIPHeader src dst 6 ((setWord16 T0 16 c).length + payload.length) ++
        setWord16 T0 16 c ++ payload := rfl
  have hiplen : (BuildIPHeader src dst 6
      ((setWord16 T0 16 c).length + payload.length)).length = 20 :=
    BuildIPHeader_length _ _ _ _
  have hdrop : (SendPacket src srcPort dst dstPort seq ack flags opts payload).drop 20 =
      setWord16 T0 16 c ++ payload := by
    rw [hpkt, List.append_assoc, show (20 : Nat) = (BuildIPHeader src dst 6
      ((setWord16 T0 16 c).length + payload.length)).length from hiplen.symm,
      List.drop_left]
  -- explicit shape of the final TCP header
  have hAlen : (u16 srcPort ++ u16 dstPort ++ u32 seq ++ u32 ack ++
      [(20 + (padOptions opts).length) / 4 % 256 * 16 % 256, flags % 256] ++
      u16 65535).length = 16 := by simp [u16, u32]
  have hT0split : T0 = (u16 srcPort ++ u16 dstPort ++ u32 seq ++ u32 ack ++
      [(20 + (padOptions opts).length) / 4 % 256 * 16 % 256, flags % 256] ++
      u16 65535) ++ [0, 0] ++ ([0, 0] ++ padOptions opts) := by
    rw [hT0]
    unfold BuildTCPHeader
    simp [List.append_assoc]
  have hTsplit : setWord16 T0 16 c = (u16 srcPort ++ u16 dstPort ++ u32 seq ++ u32 ack ++
      [(20 + (padOptions opts).length) / 4 % 256 * 16 % 256, flags % 256] ++
      u16 65535) ++ u16 c ++ ([0, 0] ++ padOptions opts) := by
    rw [hT0split]
    have h := setWord16_insert (u16 srcPort ++ u16 dstPort ++ u32 seq ++ u32 ack ++
      [(20 + (padOptions opts).length) / 4 % 256 * 16 % 256, flags % 256] ++
      u16 65535) ([0, 0] ++ padOptions opts) c
    rwa [hAlen] at h
  refine ⟨?_, ?_, ?_, ?_, ?_, padOptions_length_mod opts, ?_, ?_, ?_⟩
  · rw [hpkt]
    simp only [List.length_append, hiplen, hTlen, hT0len]
    rw [BuildIPHeader_length]
  · rw [hpkt, List.append_assoc, List.getD_append _ _ _ _ (by rw [hiplen]; omega)]
    show (setWord16 ([0x45, 0] ++ u16 ((20 + ((setWord16 T0 16 c).length +
      payload.length)) % 65536) ++ u16 12345 ++ u16 0x4000 ++ [64, 6 % 256] ++ [0, 0] ++
      to4 src ++ to4 dst) 10 _).getD 6 0 = 0x40
    simp [setWord16, u16, List.getD_append, List.getD]
  · rw [hpkt, List.append_assoc, List.getD_append _ _ _ _ (by rw [hiplen]; omega)]
    show (setWord16 ([0x45, 0] ++ u16 ((20 + ((setWord16 T0 16 c).length +
      payload.length)) % 65536) ++ u16 12345 ++ u16 0x4000 ++ [64, 6 % 256] ++ [0, 0] ++
      to4 src ++ to4 dst) 10 _).getD 7 0 = 0
    simp [setWord16, u16, List.getD_append, List.getD]
  · rw [hpkt, List.append_assoc, List.getD_append _ _ _ _ (by rw [hiplen]; omega)]
    show (setWord16 ([0x45, 0] ++ u16 ((20 + ((setWord16 T0 16 c).length +
      payload.length)) % 65536) ++ u16 12345 ++ u16 0x4000 ++ [64, 6 % 256] ++ [0, 0] ++
      to4 src ++ to4 dst) 10 _).getD 8 0 = 64
    simp [setWord16, u16, List.getD_append, List.getD]
  · rw [hpkt, List.append_assoc, List.getD_append _ _ _ _ (by rw [hiplen]; omega)]
    show (setWord16 ([0x45, 0] ++ u16 ((20 + ((setWord16 T0 16 c).length +
      payload.length)) % 65536) ++ u16 12345 ++ u16 0x4000 ++ [64, 6 % 256] ++ [0, 0] ++
      to4 src ++ to4 dst) 10 _).getD 9 0 = 6
    simp [setWord16, u16, List.getD_append, List.getD]
  · rw [hdrop, List.getD_append _ _ _ _ (by rw [hTlen, hT0len]; omega), hTsplit]
    simp [u16, u32, List.getD_append, List.getD]
  · rw [hdrop, List.getD_append _ _ _ _ (by rw [hTlen, hT0len]; omega), hTsplit]
    simp [u16, u32, List.getD_append, List.getD]
  · intro holen
    have hpadlen : (padOptions opts).length ≤ 40 := by
      simp only [padOptions, List.length_append, List.length_replicate]
      omega
    rw [dataOffsetField, hdrop, List.getD_append _ _ _ _ (by rw [hTlen, hT0len]; omega),
      hTsplit]
    have : ((u16 srcPort ++ u16 dstPort ++ u32 seq ++ u32 ack ++
        [(20 + (padOptions opts).length) / 4 % 256 * 16 % 256, flags % 256] ++
        u16 65535) ++ u16 c ++ ([0, 0] ++ padOptions opts)).getD 12 0 =
        (20 + (padOptions opts).length) / 4 % 256 * 16 % 256 := by
      simp [u16, u32, List.getD_append, List.getD]
    rw [this]
    have h60 : 20 + (padOptions opts).length ≤ 60 := by omega
    omega

theorem claim_C8_sendPacket_headers_witness :
    dataOffsetField ((SendPacket [10, 0, 0, 1] 80 [10, 0, 0, 2] 443 1 2 24 [1, 2]
        [5, 6, 7]).drop 20) = (20 + (padOptions [1, 2]).length) / 4 :=
  (claim_C8_sendPacket_headers [10, 0, 0, 1] [10, 0, 0, 2] 80 443 1 2 24 [1, 2]
    [5, 6, 7]).2.2.2.2.2.2.2.2 (by decide)

/-! ## rawsocket.go: RecvPacket

`RecvPacket` is modelled on the datagram actually received: the list `buf`
is the `n` bytes that `syscall.Recvfrom` wrote (`n = buf.length`).  Byte and
slice accesses go through bounds-checked readers that surface an
out-of-range access as the distinguished outcome `ParseErr.oob`, which the
Go original would execute as a slice-bounds panic; the safety claim proves
this outcome never occurs. -/

/-- The error outcomes of the `RecvPacket` model.  The string messages of
the Go `fmt.Errorf` calls are represented by distinct constructors. -/
inductive ParseErr where
  /-- Go error `packet too small: %d bytes`. -/
  | tooSmall : ParseErr
  /-- Go error `invalid IP header length`. -/
  | badIHL : ParseErr
  /-- Go error `not a TCP packet`. -/
  | notTCP : ParseErr
  /-- Go error `packet too small for TCP header`. -/
  | tooSmallTCP : ParseErr
  /-- an out-of-range index or slice access (a Go panic, not an error return) -/
  | oob : ParseErr
deriving DecidableEq, Repr

/-- The result record of `RecvPacket`: parsed addresses, ports, counters,
flags and payload.  `payload = none` models the `nil` payload Go returns
when `payloadStart >= n`. -/
structure ParsedPacket where
  srcIP : List Nat
  srcPort : Nat
  dstIP : List Nat
  dstPort : Nat
  seq : Nat
  ack : Nat
  flags : Nat
  payload : Option (List Nat)
deriving DecidableEq, Repr

/-- Bounds-checked byte read `l[i]`, erroring with `oob` past the end. -/
def byteAt (l : List Nat) (i : Nat) : Except ParseErr Nat :=
  match l[i]? with
  | some b => Except.ok b
  | none => Except.error ParseErr.oob

/-- Bounds-checked slice `l[a:b]`, erroring with `oob` exactly when Go's
slice expression would panic. -/
def sliceAt (l : List Nat) (a b : Nat) : Except ParseErr (List Nat) :=
  if a ≤ b ∧ b ≤ l.length then Except.ok ((l.drop a).take (b - a))
  else Except.error ParseErr.oob

/-- 16-bit big-endian read `binary.BigEndian.Uint16(l[i:i+2])`. -/
def read16 (l : List Nat) (i : Nat) : Except ParseErr Nat := do
  let a ← byteAt l i
  let b ← byteAt l (i + 1)
  Except.ok (a * 256 + b)

/-- 32-bit big-endian read `binary.BigEndian.Uint32(l[i:i+4])`. -/
def read32 (l : List Nat) (i : Nat) : Except ParseErr Nat := do
  let a ← byteAt l i
  let b ← byteAt l (i + 1)
  let c ← byteAt l (i + 2)
  let d ← byteAt l (i + 3)
  Except.ok (a * 16777216 + b * 65536 + c * 256 + d)

/-- Method `RawSocket.RecvPacket` of `rawsocket.go` on a received datagram of
`n = buf.length` bytes: length check, IHL validation, protocol check,
TCP-header length check, field extraction, and payload extraction when
`payloadStart < n`. -/
def RecvPacket (buf : List Nat) : Except ParseErr ParsedPacket := do
  let n := buf.length
  if n < 20 + 20 then Except.error ParseErr.tooSmall else do
  let ipHeader ← sliceAt buf 0 20
  let b0 ← byteAt ipHeader 0
  let ihl := b0 % 16 * 4
  if ihl > n then Except.error ParseErr.badIHL else do
  let protocol ← byteAt ipHeader 9
  if protocol ≠ 6 then Except.error ParseErr.notTCP else do
  let s12 ← byteAt ipHeader 12
  let s13 ← byteAt ipHeader 13
  let s14 ← byteAt ipHeader 14
  let s15 ← byteAt ipHeader 15
  let d16 ← byteAt ipHeader 16
  let d17 ← byteAt ipHeader 17
  let d18 ← byteAt ipHeader 18
  let d19 ← byteAt ipHeader 19
  let tcpStart := ihl
  if n < tcpStart + 20 then Except.error ParseErr.tooSmallTCP else do
  let tcpHeader ← sliceAt buf tcpStart (tcpStart + 20)
  let srcPort ← read16 tcpHeader 0
  let dstPort ← read16 tcpHeader 2
  let seq ← read32 tcpHeader 4
  let ack ← read32 tcpHeader 8
  let b12 ← byteAt tcpHeader 12
  let dataOffset := b12 / 16 * 4
  let flags ← byteAt tcpHeader 13
  let payloadStart := tcpStart + dataOffset
  let payload ←
    if payloadStart < n then do
      let p ← sliceAt buf payloadStart n
      Except.ok (some p)
    else Except.ok none
  Except.ok ⟨[s12, s13, s14, s15], srcPort, [d16, d17, d18, d19], dstPort,
    seq, ack, flags, payload⟩

@[simp] theorem exceptBind_ok {α β : Type} (a : α) (f : α → Except ParseErr β) :
    (Except.ok a : Except ParseErr α) >>= f = f a := rfl

@[simp] theorem exceptBind_error {α β : Type} (e : ParseErr)
    (f : α → Except ParseErr β) :
    (Except.error e : Except ParseErr α) >>= f = Except.error e := rfl

theorem byteAt_ok (l : List Nat) (i : Nat) (h : i < l.length) :
    byteAt l i = Except.ok (l.getD i 0) := by
  unfold byteAt
  rw [List.getElem?_eq_getElem h, List.getD_eq_getElem l 0 h]

theorem byteAt_slice (buf : List Nat) (s m i : Nat) (hi : i < m)
    (hm : s + m ≤ buf.length) :
    byteAt ((buf.drop s).take m) i = Except.ok (buf.getD (s + i) 0) := by
  unfold byteAt
  rw [List.getElem?_take_of_lt hi, List.getElem?_drop,
    List.getElem?_eq_getElem (by omega), List.getD_eq_getElem buf 0 (by omega)]

theorem sliceAt_ok (l : List Nat) (a b : Nat) (h : a ≤ b ∧ b ≤ l.length) :
    sliceAt l a b = Except.ok ((l.drop a).take (b - a)) := by
  unfold sliceAt
  rw [if_pos h]

theorem byteAt_take (buf : List Nat) (m i : Nat) (hi : i < m) (hm : m ≤ buf.length) :
    byteAt (buf.take m) i = Except.ok (buf.getD i 0) := by
  have h := byteAt_slice buf 0 m i hi (by omega)
  simpa using h

/-- The IHL-derived TCP start offset that `RecvPacket` computes from byte 0. -/
def ihlOf (buf : List Nat) : Nat := buf.getD 0 0 % 16 * 4

/-- The data-offset-derived TCP header length that `RecvPacket` computes
from byte 12 of the TCP header. -/
def dataOffsetOf (buf : List Nat) : Nat := buf.getD (ihlOf buf + 12) 0 / 16 * 4

/-- Closed-form evaluation of `RecvPacket`: the guard cascade and, on the
success path, the exact parsed fields. -/
theorem RecvPacket_eq (buf : List Nat) :
    RecvPacket buf =
      if buf.length < 40 then Except.error ParseErr.tooSmall
      else if ihlOf buf > buf.length then Except.error ParseErr.badIHL
      else if buf.getD 9 0 ≠ 6 then Except.error ParseErr.notTCP
      else if buf.length < ihlOf buf + 20 then Except.error ParseErr.tooSmallTCP
      else Except.ok
        ⟨[buf.getD 12 0, buf.getD 13 0, buf.getD 14 0, buf.getD 15 0],
         buf.getD (ihlOf buf) 0 * 256 + buf.getD (ihlOf buf + 1) 0,
         [buf.getD 16 0, buf.getD 17 0, buf.getD 18 0, buf.getD 19 0],
         buf.getD (ihlOf buf + 2) 0 * 256 + buf.getD (ihlOf buf + 3) 0,
         buf.getD (ihlOf buf + 4) 0 * 16777216 + buf.getD (ihlOf buf + 5) 0 * 65536 +
           buf.getD (ihlOf buf + 6) 0 * 256 + buf.getD (ihlOf buf + 7) 0,
         buf.getD (ihlOf buf + 8) 0 * 16777216 + buf.getD (ihlOf buf + 9) 0 * 65536 +
           buf.getD (ihlOf buf + 10) 0 * 256 + buf.getD (ihlOf buf + 11) 0,
         buf.getD (ihlOf buf + 13) 0,
         if ihlOf buf + dataOffsetOf buf < buf.length
         then some ((buf.drop (ihlOf buf + dataOffsetOf buf)).take
           (buf.length - (ihlOf buf + dataOffsetOf buf)))
         else none⟩ := by
  unfold RecvPacket
  by_cases h40 : buf.length < 20 + 20
  · rw [if_pos h40, if_pos (by omega)]
  rw [if_neg h40, if_neg (by omega)]
  rw [sliceAt_ok buf 0 20 (by omega)]
  simp only [exceptBind_ok, List.drop_zero, Nat.sub_zero]
  rw [byteAt_take buf 20 0 (by omega) (by omega)]
  simp only [exceptBind_ok, Nat.add_zero, Nat.zero_add]
  have hihl : buf.getD 0 0 % 16 * 4 = ihlOf buf := rfl
  rw [hihl]
  by_cases hbad : ihlOf buf > buf.length
  · rw [if_pos hbad, if_pos hbad]
  rw [if_neg hbad, if_neg hbad]
  rw [byteAt_take buf 20 9 (by omega) (by omega)]
  simp only [exceptBind_ok, Nat.zero_add]
  by_cases htcp : buf.getD 9 0 ≠ 6
  · rw [if_pos htcp, if_pos htcp]
  rw [if_neg htcp, if_neg htcp]
  rw [byteAt_take buf 20 12 (by omega) (by omega),
    byteAt_take buf 20 13 (by omega) (by omega),
    byteAt_take buf 20 14 (by omega) (by omega),
    byteAt_take buf 20 15 (by omega) (by omega),
    byteAt_take buf 20 16 (by omega) (by omega),
    byteAt_take buf 20 17 (by omega) (by omega),
    byteAt_take buf 20 18 (by omega) (by omega),
    byteAt_take buf 20 19 (by omega) (by omega)]
  simp only [exceptBind_ok, Nat.zero_add]
  by_cases hshort : buf.length < ihlOf buf + 20
  · rw [if_pos hshort, if_pos hshort]
  rw [if_neg hshort, if_neg hshort]
  rw [sliceAt_ok buf (ihlOf buf) (ihlOf buf + 20) (by omega)]
  simp only [exceptBind_ok]
  have hseg : ihlOf buf + 20 - ihlOf buf = 20 := by omega
  rw [hseg]
  unfold read16 read32
  rw [byteAt_slice buf (ihlOf buf) 20 0 (by omega) (by omega),
    byteAt_slice buf (ihlOf buf) 20 1 (by omega) (by omega),
    byteAt_slice buf (ihlOf buf) 20 2 (by omega) (by omega),
    byteAt_slice buf (ihlOf buf) 20 3 (by omega) (by omega),
    byteAt_slice buf (ihlOf buf) 20 4 (by omega) (by omega),
    byteAt_slice buf (ihlOf buf) 20 5 (by omega) (by omega),
    byteAt_slice buf (ihlOf buf) 20 6 (by omega) (by omega),
    byteAt_slice buf (ihlOf buf) 20 7 (by omega) (by omega),
    byteAt_slice buf (ihlOf buf) 20 8 (by omega) (by omega),
    byteAt_slice buf (ihlOf buf) 20 9 (by omega) (by omega),
    byteAt_slice buf (ihlOf buf) 20 10 (by omega) (by omega),
    byteAt_slice buf (ihlOf buf) 20 11 (by omega) (by omega),
    byteAt_slice buf (ihlOf buf) 20 12 (by omega) (by omega),
    byteAt_slice buf (ihlOf buf) 20 13 (by omega) (by omega)]
  simp only [exceptBind_ok]
  have hdofs : buf.getD (ihlOf buf + 12) 0 / 16 * 4 = dataOffsetOf buf := rfl
  rw [hdofs]
  by_cases hpay : ihlOf buf + dataOffsetOf buf < buf.length
  · rw [if_pos hpay, if_pos hpay,
      sliceAt_ok buf (ihlOf buf + dataOffsetOf buf) buf.length (by omega)]
    simp only [exceptBind_ok, Nat.add_zero]
  · rw [if_neg hpay, if_neg hpay]
    simp only [exceptBind_ok, Nat.add_zero]

instance {e a : Type} [DecidableEq e] [DecidableEq a] : DecidableEq (Except e a) :=
  fun x y =>
  match x, y with
  | Except.ok u, Except.ok v => decidable_of_iff (u = v) (by simp)
  | Except.ok _, Except.error _ => isFalse (by simp)
  | Except.error _, Except.ok _ => isFalse (by simp)
  | Except.error u, Except.error v => decidable_of_iff (u = v) (by simp)

/-- Claim C5.  `RecvPacket` validates the lengths, the IHL and the protocol:
a datagram shorter than the two minimal headers, one whose IHL-derived
header length exceeds the datagram, one whose protocol field is not TCP, or
one too short for the TCP header at its IHL offset, is answered with a
`ParseErr`; and on success the returned record carries exactly the parsed
source/destination addresses, ports, sequence/ack numbers, flags and
payload. -/
theorem claim_C5_recvPacket_parse (buf : List Nat) :
    (buf.length < 40 → RecvPacket buf = Except.error ParseErr.tooSmall) ∧
    (ihlOf buf > buf.length → ∃ e, RecvPacket buf = Except.error e) ∧
    (buf.getD 9 0 ≠ 6 → ∃ e, RecvPacket buf = Except.error e) ∧
    (¬ buf.length < 40 → ¬ ihlOf buf > buf.length → buf.getD 9 0 = 6 →
      buf.length < ihlOf buf + 20 → RecvPacket buf = Except.error ParseErr.tooSmallTCP) ∧
    (∀ r, RecvPacket buf = Except.ok r →
      40 ≤ buf.length ∧ ihlOf buf ≤ buf.length ∧ buf.getD 9 0 = 6 ∧
      ihlOf buf + 20 ≤ buf.length ∧
      r.srcIP = [buf.getD 12 0, buf.getD 13 0, buf.getD 14 0, buf.getD 15 0] ∧
      r.dstIP = [buf.getD 16 0, buf.getD 17 0, buf.getD 18 0, buf.getD 19 0] ∧
      r.srcPort = buf.getD (ihlOf buf) 0 * 256 + buf.getD (ihlOf buf + 1) 0 ∧
      r.dstPort = buf.getD (ihlOf buf + 2) 0 * 256 + buf.getD (ihlOf buf + 3) 0 ∧
      r.seq = buf.getD (ihlOf buf + 4) 0 * 16777216 + buf.getD (ihlOf buf + 5) 0 * 65536 +
        buf.getD (ihlOf buf + 6) 0 * 256 + buf.getD (ihlOf buf + 7) 0 ∧
      r.ack = buf.getD (ihlOf buf + 8) 0 * 16777216 + buf.getD (ihlOf buf + 9) 0 * 65536 +
        buf.getD (ihlOf buf + 10) 0 * 256 + buf.getD (ihlOf buf + 11) 0 ∧
      r.flags = buf.getD (ihlOf buf + 13) 0 ∧
      r.payload = (if ihlOf buf + dataOffsetOf buf < buf.length
        then some ((buf.drop (ihlOf buf + dataOffsetOf buf)).take
          (buf.length - (ihlOf buf + dataOffsetOf buf)))
        else none)) := by
  rw [RecvPacket_eq]
  refine ⟨?_, ?_, ?_, ?_, ?_⟩
  · intro h
    rw [if_pos h]
  · intro h
    by_cases h40 : buf.length < 40
    · exact ⟨_, by rw [if_pos h40]⟩
    · exact ⟨_, by rw [if_neg h40, if_pos h]⟩
  · intro h
    by_cases h40 : buf.length < 40
    · exact ⟨_, by rw [if_pos h40]⟩
    by_cases hbad : ihlOf buf > buf.length
    · exact ⟨_, by rw [if_neg h40, if_pos hbad]⟩
    · exact ⟨_, by rw [if_neg h40, if_neg hbad, if_pos h]⟩
  · intro h1 h2 h3 h4
    rw [if_neg h1, if_neg h2, if_neg (by omega), if_pos h4]
  · intro r hr
    by_cases h1 : buf.length < 40
    · rw [if_pos h1] at hr; exact Except.noConfusion hr
    rw [if_neg h1] at hr
    by_cases h2 : ihlOf buf > buf.length
    · rw [if_pos h2] at hr; exact Except.noConfusion hr
    rw [if_neg h2] at hr
    by_cases h3 : buf.getD 9 0 ≠ 6
    · rw [if_pos h3] at hr; exact Except.noConfusion hr
    rw [if_neg h3] at hr
    by_cases h4 : buf.length < ihlOf buf + 20
    · rw [if_pos h4] at hr; exact Except.noConfusion hr
    rw [if_neg h4] at hr
    cases hr
    refine ⟨by omega, by omega, by omega, by omega, rfl, rfl, rfl, rfl, rfl, rfl, rfl, rfl⟩

/-- The demonstration datagram used by the parser witnesses: a 20-byte IPv4
header (IHL 5, protocol TCP), a 20-byte TCP header (data offset 5) and a
3-byte payload. -/
def demoDatagram : List Nat :=
  [0x45, 0, 0, 43, 0, 0, 0, 0, 64, 6, 0, 0, 10, 0, 0, 1, 10, 0, 0, 2,
   0, 80, 1, 187, 0, 0, 0, 5, 0, 0, 0, 9, 0x50, 24, 255, 255, 0, 0, 0, 0,
   7, 8, 9]

theorem claim_C5_recvPacket_parse_witness :
    (RecvPacket demoDatagram =
      Except.ok ⟨[10, 0, 0, 1], 80, [10, 0, 0, 2], 443, 5, 9, 24, some [7, 8, 9]⟩) ∧
    (RecvPacket [1, 2, 3] = Except.error ParseErr.tooSmall) :=
  ⟨by decide, (claim_C5_recvPacket_parse [1, 2, 3]).1 (by decide)⟩

/-- Claim C10.  `RecvPacket` is total with respect to parsing: the
out-of-range outcome (a Go slice panic) is never produced, every datagram
shorter than 40 bytes is answered with the `packet too small` error, and a
returned non-nil payload has length exactly `n` minus the IHL-derived TCP
start minus the data-offset-derived header length. -/
theorem claim_C10_recvPacket_total (buf : List Nat) :
    RecvPacket buf ≠ Except.error ParseErr.oob ∧
    (buf.length < 40 → RecvPacket buf = Except.error ParseErr.tooSmall) ∧
    (∀ r p, RecvPacket buf = Except.ok r → r.payload = some p →
      p.length = buf.length - (ihlOf buf + dataOffsetOf buf)) := by
  rw [RecvPacket_eq]
  refine ⟨?_, ?_, ?_⟩
  · split_ifs <;> simp
  · intro h
    rw [if_pos h]
  · intro r p hr hp
    by_cases h1 : buf.length < 40
    · rw [if_pos h1] at hr; exact Except.noConfusion hr
    rw [if_neg h1] at hr
    by_cases h2 : ihlOf buf > buf.length
    · rw [if_pos h2] at hr; exact Except.noConfusion hr
    rw [if_neg h2] at hr
    by_cases h3 : buf.getD 9 0 ≠ 6
    · rw [if_pos h3] at hr; exact Except.noConfusion hr
    rw [if_neg h3] at hr
    by_cases h4 : buf.length < ihlOf buf + 20
    · rw [if_pos h4] at hr; exact Except.noConfusion hr
    rw [if_neg h4] at hr
    cases hr
    by_cases hpay : ihlOf buf + dataOffsetOf buf < buf.length
    · rw [if_pos hpay] at hp
      cases hp
      simp only [List.length_take, List.length_drop]
      omega
    · rw [if_neg hpay] at hp
      exact Option.noConfusion hp

theorem claim_C10_recvPacket_total_witness :
    ([7, 8, 9] : List Nat).length =
      demoDatagram.length - (ihlOf demoDatagram + dataOffsetOf demoDatagram) :=
  (claim_C10_recvPacket_total demoDatagram).2.2
    ⟨[10, 0, 0, 1], 80, [10, 0, 0, 2], 443, 5, 9, 24, some [7, 8, 9]⟩ [7, 8, 9]
    (by decide) (by decide)

/-! ## iptables.go: the firewall coordinator

The manager state is the `rules` slice; the external iptables state (what
the `iptables` subprocesses with `-A`, `-C` and `-D` see and mutate) is an
`IPTWorld`.
Success of the external `-A`/`-D` commands beyond the rule-set semantics is
an oracle (`aenv`/`denv : String → Bool`), so that removal failures can be
modelled; `iptables -C` answers membership in the world. -/

/-- The rules currently installed in the kernel's iptables. -/
structure IPTWorld where
  installed : List String
deriving DecidableEq

/-- The `OUTPUT -p tcp --tcp-flags RST RST --sport <port> -j DROP` rule
string built by `AddRuleForPort`; the Go source builds the identical string
for both the server and the client branch. -/
def ruleForPort (port : Nat) (isServer : Bool) : String :=
  if isServer then
    ("OUTPUT -p tcp --tcp-flags RST RST --sport ") ++ toString port ++ " -j DROP"
  else
    ("OUTPUT -p tcp --tcp-flags RST RST --sport ") ++ toString port ++ " -j DROP"

/-- The per-connection rule string built by `AddRuleForConnection` (again
identical in both branches of the source). -/
def ruleForConnection (localIP : String) (localPort : Nat)
    (remoteIP : String) (remotePort : Nat) (isServer : Bool) : String :=
  if isServer then
    ("OUTPUT -p tcp --tcp-flags RST RST -s ") ++ localIP ++ " --sport " ++
      toString localPort ++ " -d " ++ remoteIP ++ " --dport " ++
      toString remotePort ++ " -j DROP"
  else
    ("OUTPUT -p tcp --tcp-flags RST RST -s ") ++ localIP ++ " --sport " ++
      toString localPort ++ " -d " ++ remoteIP ++ " --dport " ++
      toString remotePort ++ " -j DROP"

/-- Method `ruleExists`: running `iptables -C <rule>` answers whether the rule is
installed. -/
def ruleExists (w : IPTWorld) (rule : String) : Bool :=
  w.installed.contains rule

/-- Running `iptables -A <rule>`: on success (per the oracle) the rule is
appended to the kernel's list. -/
def runAdd (aenv : String → Bool) (w : IPTWorld) (rule : String) :
    IPTWorld × Bool :=
  if aenv rule then (⟨w.installed ++ [rule]⟩, true) else (w, false)

/-- Running `iptables -D <rule>`: on success the rule is removed from the
kernel's list. -/
def runDel (denv : String → Bool) (w : IPTWorld) (rule : String) :
    IPTWorld × Bool :=
  if denv rule then (⟨w.installed.erase rule⟩, true) else (w, false)

/-- The outcome of an install operation: the new external world, the new
manager rule list `m.rules`, and the failed rule when the add command
failed. -/
structure AddResult where
  world : IPTWorld
  rules : List String
  err : Option String
deriving DecidableEq

/-- Method `IPTablesManager.AddRuleForPort`: build the rule, skip if it already
exists (idempotence by check-then-add), else run `iptables -A` and append
it to the manager's rule list on success. -/
def AddRuleForPort (aenv : String → Bool) (w : IPTWorld) (rules : List String)
    (port : Nat) (isServer : Bool) : AddResult :=
  let rule := ruleForPort port isServer
  if ruleExists w rule then ⟨w, rules, none⟩
  else
    match runAdd aenv w rule with
    | (w2, true) => ⟨w2, rules ++ [rule], none⟩
    | (w2, false) => ⟨w2, rules, some rule⟩

/-- The `for _, rule := range rules` loop of `AddRuleForConnection`:
check-then-add each rule, returning the error immediately on a failed add
(keeping the rules appended so far). -/
def addRulesLoop (aenv : String → Bool) (w : IPTWorld) (mrules : List String) :
    List String → AddResult
  | [] => ⟨w, mrules, none⟩
  | r :: rest =>
    if ruleExists w r then addRulesLoop aenv w mrules rest
    else
      match runAdd aenv w r with
      | (w2, true) => addRulesLoop aenv w2 (mrules ++ [r]) rest
      | (w2, false) => ⟨w2, mrules, some r⟩

/-- Method `IPTablesManager.AddRuleForConnection`: the source builds a one-element
rule slice (both branches identical) and runs the check-then-add loop. -/
def AddRuleForConnection (aenv : String → Bool) (w : IPTWorld)
    (mrules : List String) (localIP : String) (localPort : Nat)
    (remoteIP : String) (remotePort : Nat) (isServer : Bool) : AddResult :=
  addRulesLoop aenv w mrules
    [ruleForConnection localIP localPort remoteIP remotePort isServer]

/-- The removal loop of `RemoveAllRules`: attempt `iptables -D` for every
rule, `continue` past failures while collecting them. -/
def removeLoop (denv : String → Bool) (w : IPTWorld) :
    List String → IPTWorld × List String
  | [] => (w, [])
  | r :: rest =>
    match runDel denv w r with
    | (w2, true) => removeLoop denv w2 rest
    | (w2, false) =>
      let s := removeLoop denv w2 rest
      (s.1, r :: s.2)

/-- The outcome of `RemoveAllRules`: the new external world, the manager's
rule list (always reset to empty), the collected per-rule failures, and the
aggregate error built from them when any removal failed. -/
structure RemoveResult where
  world : IPTWorld
  rules : List String
  failures : List String
  err : Option (List String)
deriving DecidableEq

/-- Method `IPTablesManager.RemoveAllRules`: run the removal loop over the
manager's rules, reset the rule list to empty, and aggregate the collected
failures into a single error when there are any. -/
def RemoveAllRules (denv : String → Bool) (w : IPTWorld)
    (mrules : List String) : RemoveResult :=
  let s := removeLoop denv w mrules
  ⟨s.1, [], s.2, if s.2.isEmpty then none else some s.2⟩

/-- An install call of the firewall coordinator, for scripting sequences of
`AddRuleForPort` / `AddRuleForConnection` invocations. -/
inductive FwCmd where
  | port (port : Nat) (isServer : Bool) : FwCmd
  | conn (localIP : String) (localPort : Nat) (remoteIP : String)
      (remotePort : Nat) (isServer : Bool) : FwCmd

/-- Run a sequence of install calls against the world and the manager. -/
def runFwScript (aenv : String → Bool) :
    List FwCmd → IPTWorld → List String → IPTWorld × List String
  | [], w, m => (w, m)
  | c :: rest, w, m =>
    let r := match c with
      | FwCmd.port p s => AddRuleForPort aenv w m p s
      | FwCmd.conn a b c2 d e => AddRuleForConnection aenv w m a b c2 d e
    runFwScript aenv rest r.world r.rules

theorem removeLoop_failures (denv : String → Bool) (l : List String) :
    ∀ w : IPTWorld, (removeLoop denv w l).2 = l.filter (fun r => !denv r) := by
  induction l with
  | nil => intro w; simp [removeLoop]
  | cons r rest ih =>
    intro w
    by_cases h : denv r
    · simp [removeLoop, runDel, h, ih]
    · simp [removeLoop, runDel, h, ih]

/-- Claim C6.  After any sequence of `AddRuleForPort` / `AddRuleForConnection`
calls starting from a fresh manager, `RemoveAllRules` leaves the manager's
rule list empty; it attempts every installed rule even when some removals
fail — the collected failures are exactly the rules whose `iptables -D`
failed — and it reports one aggregate error exactly when at least one
removal failed. -/
theorem claim_C6_removeAllRules (script : List FwCmd) (aenv denv : String → Bool) :
    (RemoveAllRules denv (runFwScript aenv script ⟨[]⟩ []).1
        (runFwScript aenv script ⟨[]⟩ []).2).rules = [] ∧
    (RemoveAllRules denv (runFwScript aenv script ⟨[]⟩ []).1
        (runFwScript aenv script ⟨[]⟩ []).2).failures =
      (runFwScript aenv script ⟨[]⟩ []).2.filter (fun r => !denv r) ∧
    ((RemoveAllRules denv (runFwScript aenv script ⟨[]⟩ []).1
        (runFwScript aenv script ⟨[]⟩ []).2).err = none ↔
      ∀ r ∈ (runFwScript aenv script ⟨[]⟩ []).2, denv r = true) := by
  refine ⟨rfl, removeLoop_failures denv _ _, ?_⟩
  simp only [RemoveAllRules]
  rw [removeLoop_failures denv _ _]
  constructor
  · intro h r hr
    by_cases hd : denv r
    · exact hd
    exfalso
    have hmem : r ∈ (runFwScript aenv script ⟨[]⟩ []).2.filter (fun x => !denv x) :=
      List.mem_filter.mpr ⟨hr, by simp [hd]⟩
    by_cases he : ((runFwScript aenv script ⟨[]⟩ []).2.filter (fun x => !denv x)).isEmpty
    · rw [List.isEmpty_iff.mp he] at hmem
      exact List.not_mem_nil r hmem
    · rw [if_neg (by simpa using he)] at h
      exact Option.noConfusion h
  · intro h
    have : (runFwScript aenv script ⟨[]⟩ []).2.filter (fun x => !denv x) = [] := by
      rw [List.filter_eq_nil_iff]
      intro a ha
      simp [h a ha]
    simp [this]

theorem claim_C6_removeAllRules_witness :
    (RemoveAllRules (fun _ => false)
        (runFwScript (fun _ => true) [FwCmd.port 9 true] ⟨[]⟩ []).1
        (runFwScript (fun _ => true) [FwCmd.port 9 true] ⟨[]⟩ []).2).rules = [] :=
  (claim_C6_removeAllRules [FwCmd.port 9 true] (fun _ => true) (fun _ => false)).1

/-- Claim C7.  `AddRuleForPort` is idempotent by check-then-add: when a
first call succeeds, a second call with the same port and role finds the
rule already installed, adds nothing and succeeds, leaving both the external
world and the manager rule list exactly as after the first call. -/
theorem claim_C7_addRuleForPort_idempotent (aenv : String → Bool) (w : IPTWorld)
    (m : List String) (port : Nat) (isServer : Bool)
    (h : (AddRuleForPort aenv w m port isServer).err = none) :
    AddRuleForPort aenv (AddRuleForPort aenv w m port isServer).world
        (AddRuleForPort aenv w m port isServer).rules port isServer =
      AddRuleForPort aenv w m port isServer := by
  unfold AddRuleForPort at *
  by_cases hex : ruleExists w (ruleForPort port isServer)
  · simp only [hex, if_true]
  · simp only [hex, if_false] at *
    by_cases ha : aenv (ruleForPort port isServer)
    · simp only [runAdd, ha, if_true] at *
      have hex2 : ruleExists ⟨w.installed ++ [ruleForPort port isServer]⟩
          (ruleForPort port isServer) = true := by
        simp [ruleExists]
      simp [hex2]
    · simp only [runAdd, ha, if_false] at h
      exact absurd h (by simp)

theorem claim_C7_addRuleForPort_idempotent_witness :
    AddRuleForPort (fun _ => true)
        (AddRuleForPort (fun _ => true) ⟨[]⟩ [] 7 true).world
        (AddRuleForPort (fun _ => true) ⟨[]⟩ [] 7 true).rules 7 true =
      AddRuleForPort (fun _ => true) ⟨[]⟩ [] 7 true :=
  claim_C7_addRuleForPort_idempotent (fun _ => true) ⟨[]⟩ [] 7 true (by decide)

theorem claim_C3_checksums_verify_witness :
    ChecksumOK (BuildIPHeader [10, 0, 0, 1] [10, 0, 0, 2] 6 23) ∧
    ChecksumOK (pseudoHeader [10, 0, 0, 1] [10, 0, 0, 2]
        ((SendPacket [10, 0, 0, 1] 80 [10, 0, 0, 2] 443 1 2 24 [] [9, 9, 9]).drop 20).length
      ++ (SendPacket [10, 0, 0, 1] 80 [10, 0, 0, 2] 443 1 2 24 [] [9, 9, 9]).drop 20) :=
  claim_C3_checksums_verify [10, 0, 0, 1] [10, 0, 0, 2] 6 23 80 443 1 2 24 [] [9, 9, 9]
    (by decide) (by decide) (by decide) (by decide) (by decide) (by decide)

/-! ## mtu_discovery.go: DiscoverOptimalMTU

The binary-search loop of `MTUDiscovery.DiscoverOptimalMTU` with the
bounds set by `NewMTUDiscovery` (`minMTU = 576`, `maxMTU = 1500`).  The
probe `testMTU` is an opaque predicate.  The model instruments the loop
with the list of candidate sizes on which the probe was invoked; the
address-resolution error paths (which return before the loop) are outside
the model. -/

/-- The `for low <= high && attempts < maxAttempts` loop.  Returns the
final `optimal` together with the probed candidates in order. -/
def mtuLoop (probe : Int → Bool) (low high optimal : Int) (attempts : Nat) :
    Int × List Int :=
  if low ≤ high ∧ attempts < 10 then
    let testMTU := (low + high) / 2
    if probe testMTU then
      let s := mtuLoop probe (testMTU + 1) high testMTU (attempts + 1)
      (s.1, testMTU :: s.2)
    else
      let s := mtuLoop probe low (testMTU - 1) optimal (attempts + 1)
      (s.1, testMTU :: s.2)
  else (optimal, [])
termination_by 10 - attempts
decreasing_by all_goals omega

/-- Method `DiscoverOptimalMTU`: run the binary search over `[576, 1500]` starting
from `optimal = minMTU`, then subtract the IP (20), TCP (20), packet-type
(1) and encryption (28) overheads and clamp the result into `[500, 1371]`. -/
def DiscoverOptimalMTU (probe : Int → Bool) : Int :=
  let optimal := (mtuLoop probe 576 1500 576 0).1
  let safeMTU := optimal - 20 - 20 - 1 - 28
  let safeMTU := if safeMTU < 500 then 500 else safeMTU
  if safeMTU > 1371 then 1371 else safeMTU

theorem mtuLoop_spec (probe : Int → Bool) :
    ∀ (fuel : Nat) (low high optimal : Int) (attempts : Nat),
      fuel = 10 - attempts → 576 ≤ low → high ≤ 1500 →
      (mtuLoop probe low high optimal attempts).2.length ≤ fuel ∧
      ∀ c ∈ (mtuLoop probe low high optimal attempts).2, 576 ≤ c ∧ c ≤ 1500 := by
  intro fuel
  induction fuel with
  | zero =>
    intro low high optimal attempts hf hl hh
    rw [mtuLoop]
    have : ¬(low ≤ high ∧ attempts < 10) := by omega
    rw [if_neg this]
    simp
  | succ n ih =>
    intro low high optimal attempts hf hl hh
    rw [mtuLoop]
    by_cases hc : low ≤ high ∧ attempts < 10
    · rw [if_pos hc]
      have hmid1 : 576 ≤ (low + high) / 2 := by omega
      have hmid2 : (low + high) / 2 ≤ 1500 := by omega
      by_cases hp : probe ((low + high) / 2)
      · rw [if_pos hp]
        have h1 := ih ((low + high) / 2 + 1) high ((low + high) / 2) (attempts + 1)
          (by omega) (by omega) hh
        refine ⟨by simpa using h1.1, ?_⟩
        intro c hcm
        simp only [List.mem_cons] at hcm
        rcases hcm with rfl | hcm
        · exact ⟨hmid1, hmid2⟩
        · exact h1.2 c hcm
      · rw [if_neg hp]
        have h1 := ih low ((low + high) / 2 - 1) optimal (attempts + 1)
          (by omega) hl (by omega)
        refine ⟨by simpa using h1.1, ?_⟩
        intro c hcm
        simp only [List.mem_cons] at hcm
        rcases hcm with rfl | hcm
        · exact ⟨hmid1, hmid2⟩
        · exact h1.2 c hcm
    · rw [if_neg hc]
      simp

/-- Claim C4.  The budget returned by `DiscoverOptimalMTU` is the loop's
path-MTU minus 20 (IP) + 20 (TCP) + 1 (kind) + 28 (cipher) of overhead,
clamped into `[500, 1371]` (low clamp first, exactly as the source); and
the probe loop invokes the probe on at most 10 candidates, all of them
inside `[576, 1500]`. -/
theorem claim_C4_mtu_discovery (probe : Int → Bool) :
    (DiscoverOptimalMTU probe =
      min 1371 (if (mtuLoop probe 576 1500 576 0).1 - 20 - 20 - 1 - 28 < 500 then (500 : Int)
        else (mtuLoop probe 576 1500 576 0).1 - 20 - 20 - 1 - 28)) ∧
    (mtuLoop probe 576 1500 576 0).2.length ≤ 10 ∧
    ∀ c ∈ (mtuLoop probe 576 1500 576 0).2, 576 ≤ c ∧ c ≤ 1500 := by
  have h := mtuLoop_spec probe 10 576 1500 576 0 (by omega) (by omega) (by omega)
  refine ⟨?_, h.1, h.2⟩
  simp only [DiscoverOptimalMTU]
  rw [Int.min_def]
  split_ifs <;> omega

/-! ## The FEC package (Reed–Solomon block codec)

The outer `Encode`/`Decode` logic (padding, shard splitting, presence
counting, the guard cascade, concatenation) is translated from the `fec`
package source.  The inner `encoder.Encode` / `encoder.Reconstruct` calls
go to the external `github.com/klauspost/reedsolomon` dependency, which is
not part of this repository; that part is modelled from the spec
(§4.5: parity shards are produced "via Reed–Solomon over GF(2^8) so that
any D of the D+P shards recover the block").  The model is the systematic
Reed–Solomon code in Lagrange form over an arbitrary field `F` with an
assignment `pts : Nat → F` of pairwise distinct evaluation points to shard
indices: data shard `i` holds the values at `pts i`, parity shard `i` holds
the values of the interpolating polynomial at `pts (D+i)`, and
reconstruction re-interpolates from any `D` present shards.  GF(2^8) is
such a field, and the spec-side constraint `D+P ≤ 255` is exactly what
makes an injective `pts` on the shard indices available there; theorems
carry that injectivity as the hypothesis. -/

/-- A byte slice of the Go code zero-padded to length `n`
(`make([]byte, n)` followed by a partial `copy`). -/
def padTo {F : Type} [Field F] (n : Nat) (xs : List F) : List F :=
  xs ++ List.replicate (n - xs.length) 0

/-- Evaluation at `y` of the Lagrange interpolation polynomial through the
points `(xs i, vs i)`: the executable core of the Reed–Solomon model. -/
def lagEvalList {F : Type} [Field F] (xs vs : List F) (y : F) : F :=
  ∑ i ∈ Finset.range xs.length, vs.getD i 0 *
    ∏ j ∈ (Finset.range xs.length).erase i,
      (y - xs.getD j 0) / (xs.getD i 0 - xs.getD j 0)

/-- The `FEC` struct of the `fec` package: data/parity shard counts and the
configured shard size.  (The `encoder` field holds the external
Reed–Solomon codec and has no state beyond `dataShards`/`parityShards`.) -/
structure FEC where
  dataShards : Nat
  parityShards : Nat
  shardSize : Nat
deriving DecidableEq

/-- The error values of the `fec` package: the two sentinel errors
`ErrIncomplete` and `ErrUnrecoverable`, and the `errors.New` shape errors,
one constructor per message. -/
inductive FecError where
  /-- Go error `empty data`. -/
  | emptyData : FecError
  /-- Go error `dataShards and parityShards must be positive`. -/
  | badShardCounts : FecError
  /-- Go error `shardSize must be positive`. -/
  | badShardSize : FecError
  /-- Go error `incorrect number of shards`. -/
  | wrongShardCount : FecError
  /-- Go error `shardPresent length mismatch`. -/
  | presentLengthMismatch : FecError
  /-- Go error `no valid shards found to determine shard size`. -/
  | noValidShards : FecError
  /-- Go error `inconsistent shard size`. -/
  | inconsistentShardSize : FecError
  /-- Sentinel `ErrIncomplete`: not enough shards to reconstruct data -/
  | incomplete : FecError
  /-- Sentinel `ErrUnrecoverable`: too many missing shards for reconstruction -/
  | unrecoverable : FecError
deriving DecidableEq

/-- Function `NewFEC`: validate the configuration. -/
def NewFEC (dataShards parityShards shardSize : Nat) : Except FecError FEC :=
  if dataShards ≤ 0 ∨ parityShards ≤ 0 then Except.error FecError.badShardCounts
  else if shardSize ≤ 0 then Except.error FecError.badShardSize
  else Except.ok ⟨dataShards, parityShards, shardSize⟩

/-- Method `FEC.Encode`: reject empty data; compute the shard size as
`ceil(len/D)` raised to the configured `shardSize`; cut the data into `D`
zero-padded shards; and append the `P` parity shards.  The parity values
are modelled from the spec as the interpolating polynomial of each byte
column evaluated at the parity points. -/
def FEC.Encode {F : Type} [Field F] (f : FEC) (pts : Nat → F) (data : List F) :
    Except FecError (List (Option (List F))) :=
  if data.length = 0 then Except.error FecError.emptyData
  else
    let totalShards := f.dataShards
    let shardSize0 := (data.length + totalShards - 1) / totalShards
    let shardSize :=
      if 0 < f.shardSize ∧ shardSize0 < f.shardSize then f.shardSize else shardSize0
    let dataShards := (List.range f.dataShards).map
      (fun i => padTo shardSize ((data.drop (i * shardSize)).take shardSize))
    let parityShards := (List.range f.parityShards).map (fun i =>
      (List.range shardSize).map (fun j =>
        lagEvalList ((List.range f.dataShards).map pts)
          ((List.range f.dataShards).map (fun k => (dataShards.getD k []).getD j 0))
          (pts (f.dataShards + i))))
    Except.ok ((dataShards ++ parityShards).map some)

/-- Method `FEC.Decode`: shape checks, the presence count against `D`
(`ErrIncomplete`), shard-size determination from the first present
non-empty shard, the consistency check, and then reconstruction.  A `none`
shard is Go's `nil` slice.  Reconstruction is modelled from the spec:
every missing data shard is re-interpolated from the first `D` present
shards, and the `D` data shards are concatenated. -/
def FEC.Decode {F : Type} [Field F] (f : FEC) (pts : Nat → F)
    (shards : List (Option (List F))) (shardPresent : List Bool) :
    Except FecError (List F) :=
  if shards.length ≠ f.dataShards + f.parityShards then
    Except.error FecError.wrongShardCount
  else if shardPresent.length ≠ shards.length then
    Except.error FecError.presentLengthMismatch
  else
    let presentCount := (shardPresent.filter (fun b => b)).length
    if presentCount < f.dataShards then Except.error FecError.incomplete
    else
      match (List.range shards.length).find? (fun i => shardPresent.getD i false &&
          (shards.getD i none).isSome &&
          decide (0 < ((shards.getD i none).getD []).length)) with
      | none => Except.error FecError.noValidShards
      | some i0 =>
        let shardSize := ((shards.getD i0 none).getD []).length
        if (List.range shards.length).any (fun i => shardPresent.getD i false &&
            (shards.getD i none).isSome &&
            decide (((shards.getD i none).getD []).length ≠ shardSize)) then
          Except.error FecError.inconsistentShardSize
        else
          let chosen := ((List.range shards.length).filter
            (fun i => shardPresent.getD i false)).take f.dataShards
          let recon := fun (k : Nat) =>
            if shardPresent.getD k false then (shards.getD k none).getD []
            else (List.range shardSize).map (fun j =>
              lagEvalList (chosen.map pts)
                (chosen.map (fun s => ((shards.getD s none).getD []).getD j 0)) (pts k))
          Except.ok (((List.range f.dataShards).map recon).flatten)

open Polynomial in
theorem lagEvalList_eq_eval {F : Type} [Field F] (xs vs : List F) (y : F) :
    lagEvalList xs vs y = Polynomial.eval y
      (Lagrange.interpolate (Finset.range xs.length) (fun i => xs.getD i 0)
        (fun i => vs.getD i 0)) := by
  rw [Lagrange.interpolate_apply, Polynomial.eval_finset_sum]
  unfold lagEvalList
  refine Finset.sum_congr rfl fun i hi => ?_
  rw [Polynomial.eval_mul, Polynomial.eval_C]
  congr 1
  have hb : Lagrange.basis (Finset.range xs.length) (fun i => xs.getD i 0) i =
      ∏ j ∈ (Finset.range xs.length).erase i,
        Lagrange.basisDivisor (xs.getD i 0) (xs.getD j 0) := rfl
  rw [hb, Polynomial.eval_prod]
  refine Finset.prod_congr rfl fun j hj => ?_
  rw [Lagrange.basisDivisor, Polynomial.eval_mul, Polynomial.eval_C,
    Polynomial.eval_sub, Polynomial.eval_X, Polynomial.eval_C,
    div_eq_mul_inv, mul_comm]

theorem getD_injOn_of_nodup {F : Type} [Field F] (xs : List F) (hnd : xs.Nodup) :
    Set.InjOn (fun i => xs.getD i 0) (Finset.range xs.length) := by
  intro a ha b hb heq
  simp only [Finset.coe_range, Set.mem_Iio] at ha hb
  simp only at heq
  rw [List.getD_eq_getElem xs 0 ha, List.getD_eq_getElem xs 0 hb] at heq
  have := List.nodup_iff_injective_get.mp hnd
    (show xs.get ⟨a, ha⟩ = xs.get ⟨b, hb⟩ by simpa using heq)
  simpa using congrArg Fin.val this

open Polynomial in
/-- Uniqueness of interpolation, in executable form: evaluating the
Lagrange formula on any `xs.length` distinct nodes carrying the values of a
polynomial of degree `< xs.length` returns that polynomial's value
anywhere. -/
theorem lagEvalList_interp {F : Type} [Field F] (xs vs : List F) (y : F)
    (hnd : xs.Nodup) (q : Polynomial F)
    (hdeg : q.degree < (xs.length : WithBot Nat))
    (hvals : ∀ i, i < xs.length → vs.getD i 0 = q.eval (xs.getD i 0)) :
    lagEvalList xs vs y = q.eval y := by
  rw [lagEvalList_eq_eval]
  have hvs := getD_injOn_of_nodup xs hnd
  have hq : q = Lagrange.interpolate (Finset.range xs.length)
      (fun i => xs.getD i 0) (fun i => vs.getD i 0) := by
    refine Lagrange.eq_interpolate_of_eval_eq _ hvs ?_ ?_
    · rwa [Finset.card_range]
    · intro i hi
      exact (hvals i (by simpa using hi)).symm
  rw [← hq]

theorem getD_map_lt {α β : Type} (f : α → β) (l : List α) (i : Nat) (d : β)
    (h : i < l.length) :
    (l.map f).getD i d = f (l.get ⟨i, h⟩) := by
  rw [List.getD_eq_getElem (l.map f) d (by simpa using h)]
  simp

theorem getD_map_range {α : Type} (f : Nat → α) (d : α) (n i : Nat) (h : i < n) :
    ((List.range n).map f).getD i d = f i := by
  rw [getD_map_lt f (List.range n) i d (by simpa using h)]
  congr 1
  simp

theorem encode_shardSize (D S len : Nat) (hD : 0 < D) (hS : 0 < S)
    (hle : len ≤ D * S) :
    (if 0 < S ∧ (len + D - 1) / D < S then S else (len + D - 1) / D) = S := by
  have h1 : len + D - 1 ≤ D * S + (D - 1) := by omega
  have h2 : (D * S + (D - 1)) / D = S := by
    rw [Nat.add_comm, Nat.add_mul_div_left _ _ hD, Nat.div_eq_of_lt (by omega)]
    omega
  have hfloor : (len + D - 1) / D ≤ S := by
    calc (len + D - 1) / D ≤ (D * S + (D - 1)) / D := Nat.div_le_div_right h1
      _ = S := h2
  split_ifs with h
  · rfl
  · omega

/-- Normal form of a successful `Encode`: the data shards and the parity
shards, all of the configured size `S`, when the payload fits `D·S`. -/
theorem encode_ok {F : Type} [Field F] (D P S : Nat) (pts : Nat → F) (data : List F)
    (hD : 0 < D) (hS : 0 < S) (hlen : 0 < data.length) (hle : data.length ≤ D * S) :
    FEC.Encode ⟨D, P, S⟩ pts data = Except.ok
      (((List.range D).map (fun i => padTo S ((data.drop (i * S)).take S)) ++
        (List.range P).map (fun i => (List.range S).map (fun j =>
          lagEvalList ((List.range D).map pts)
            ((List.range D).map (fun k =>
              (((List.range D).map (fun i2 => padTo S ((data.drop (i2 * S)).take S))).getD
                k []).getD j 0))
            (pts (D + i))))).map some) := by
  simp only [FEC.Encode]
  rw [if_neg (by omega), encode_shardSize D S data.length hD hS hle]

theorem padTo_length {F : Type} [Field F] (n : Nat) (xs : List F)
    (h : xs.length ≤ n) : (padTo n xs).length = n := by
  simp only [padTo, List.length_append, List.length_replicate]
  omega

/-- Claim C9.  For every non-empty payload of length at most `D·S`,
`Encode` succeeds and returns exactly `D+P` shards, every one of them
non-nil of size exactly the configured `S`. -/
theorem claim_C9_encode_shards {F : Type} [Field F] (D P S : Nat) (pts : Nat → F)
    (data : List F) (hD : 0 < D) (hP : 0 < P) (hS : 0 < S)
    (hlen : 0 < data.length) (hle : data.length ≤ D * S) :
    ∃ shards, FEC.Encode ⟨D, P, S⟩ pts data = Except.ok shards ∧
      shards.length = D + P ∧ ∀ s ∈ shards, ∃ l, s = some l ∧ l.length = S := by
  refine ⟨_, encode_ok D P S pts data hD hS hlen hle, ?_, ?_⟩
  · simp
  · intro s hs
    simp only [List.mem_map, List.mem_append] at hs
    obtain ⟨l, hl, rfl⟩ := hs
    refine ⟨l, rfl, ?_⟩
    rcases hl with hl | hl
    · simp only [List.mem_map, List.mem_range] at hl
      obtain ⟨i, _, rfl⟩ := hl
      exact padTo_length S _ (by simp [List.length_take])
    · simp only [List.mem_map, List.mem_range] at hl
      obtain ⟨i, _, rfl⟩ := hl
      simp

theorem claim_C9_encode_shards_witness :
    (FEC.Encode ⟨1, 2, 1⟩ (fun n => (n : ZMod 2)) [1]).isOk = true := by
  obtain ⟨s, hs, _, _⟩ := claim_C9_encode_shards 1 2 1 (fun n => (n : ZMod 2)) [1]
    (by decide) (by decide) (by decide) (by decide) (by decide)
  rw [hs]
  rfl

/-- Claim C2.  Whenever fewer than `D` shards of a block are present (more
than `P` lost), `Decode` reports `ErrIncomplete` or `ErrUnrecoverable` and
never returns decoded data; with fewer than `D` present shards it is always
the former. -/
theorem claim_C2_decode_incomplete {F : Type} [Field F] (f : FEC) (pts : Nat → F)
    (shards : List (Option (List F))) (present : List Bool)
    (h1 : shards.length = f.dataShards + f.parityShards)
    (h2 : present.length = shards.length)
    (hc : (present.filter (fun b => b)).length < f.dataShards) :
    FEC.Decode f pts shards present = Except.error FecError.incomplete ∨
    FEC.Decode f pts shards present = Except.error FecError.unrecoverable := by
  left
  simp only [FEC.Decode]
  rw [if_neg (by omega), if_neg (by omega), if_pos hc]

theorem claim_C2_decode_incomplete_witness :
    FEC.Decode ⟨2, 1, 1⟩ (fun n => (n : ZMod 2)) [none, none, some [1]]
        [false, false, true] = Except.error FecError.incomplete ∨
    FEC.Decode ⟨2, 1, 1⟩ (fun n => (n : ZMod 2)) [none, none, some [1]]
        [false, false, true] = Except.error FecError.unrecoverable :=
  claim_C2_decode_incomplete ⟨2, 1, 1⟩ (fun n => (n : ZMod 2))
    [none, none, some [1]] [false, false, true] (by decide) (by decide) (by decide)

/-- The presence count over the index range equals the count of `true`
entries of the presence mask. -/
theorem countTrue (l : List Bool) :
    ((List.range l.length).filter (fun i => l.getD i false)).length =
      (l.filter (fun b => b)).length := by
  induction l with
  | nil => simp
  | cons b t ih =>
    rw [show (b :: t).length = t.length + 1 from rfl, List.range_succ_eq_map]
    rw [List.filter_cons, List.filter_cons]
    have hmap : (List.filter (fun i => (b :: t).getD i false)
        ((List.range t.length).map Nat.succ)) =
        ((List.range t.length).filter (fun i => t.getD i false)).map Nat.succ := by
      rw [List.filter_map]
      congr 1
    rw [hmap]
    rcases b with _ | _
    · rw [if_neg (by simp), if_neg (by simp), List.length_map]
      exact ih
    · rw [if_pos (by rfl), if_pos (by rfl)]
      simp only [List.length_cons, List.length_map]
      omega

theorem flatten_chunks {F : Type} [Field F] (S : Nat) :
    ∀ (D : Nat) (data : List F), data.length ≤ D * S →
    ((List.range D).map (fun i => padTo S ((data.drop (i * S)).take S))).flatten =
      data ++ List.replicate (D * S - data.length) 0 := by
  intro D
  induction D with
  | zero =>
    intro data h
    have hz : data = [] := List.eq_nil_of_length_eq_zero (by omega)
    subst hz
    simp
  | succ n ih =>
    intro data h
    have hmul : (n + 1) * S = n * S + S := Nat.succ_mul n S
    rw [List.range_succ_eq_map, List.map_cons, List.map_map, List.flatten_cons]
    have hm : (List.range n).map
        ((fun i => padTo S ((data.drop (i * S)).take S)) ∘ Nat.succ) =
        (List.range n).map (fun i => padTo S (((data.drop S).drop (i * S)).take S)) := by
      refine List.map_eq_map_iff.mpr fun i _ => ?_
      simp only [Function.comp_apply]
      rw [List.drop_drop]
      have harg : S + i * S = Nat.succ i * S := by
        rw [Nat.succ_mul]
        omega
      rw [harg]
    have hdlen : (data.drop S).length ≤ n * S := by
      rw [List.length_drop]
      omega
    rw [hm, ih (data.drop S) hdlen]
    simp only [Nat.zero_mul, List.drop_zero]
    unfold padTo
    by_cases hcase : data.length ≤ S
    · rw [List.drop_eq_nil_of_le hcase, List.take_of_length_le hcase]
      rw [List.nil_append, List.append_assoc, ← List.replicate_add]
      have hcnt : S - data.length + (n * S - (([] : List F)).length) =
          (n + 1) * S - data.length := by
        simp only [List.length_nil]
        omega
      rw [hcnt]
    · push_neg at hcase
      have htlen : S - (data.take S).length = 0 := by
        rw [List.length_take]
        omega
      rw [htlen, List.replicate_zero, List.append_nil, ← List.append_assoc,
        List.take_append_drop]
      have hcnt : n * S - (data.drop S).length = (n + 1) * S - data.length := by
        simp only [List.length_drop]
        omega
      rw [hcnt]

/-- Claim C1, amended.  For every `D, P > 0`, every shard-index-to-field
assignment injective on the `D+P` indices (in GF(2^8) such an assignment
exists exactly when `D+P ≤ 255` indices fit among the 255 usable points),
and every non-empty payload of length at most `D·S`: if `Encode` produces
the shards of a block and at most `P` of them are lost (at least `D`
present), `Decode` on the surviving shards returns the payload zero-padded
to length `D·S` — the amendment: the decoded block is the padded block, so
it equals the payload itself exactly when the payload fills the block. -/
theorem claim_C1_decode_inverts_encode {F : Type} [Field F] (D P S : Nat)
    (pts : Nat → F) (hD : 0 < D) (hP : 0 < P) (hS : 0 < S)
    (hinj : ∀ i, i < D + P → ∀ j, j < D + P → pts i = pts j → i = j)
    (data : List F) (hlen : 0 < data.length) (hle : data.length ≤ D * S)
    (present : List Bool) (hplen : present.length = D + P)
    (hcount : D ≤ (present.filter (fun b => b)).length)
    (shards : List (Option (List F)))
    (henc : FEC.Encode ⟨D, P, S⟩ pts data = Except.ok shards) :
    FEC.Decode ⟨D, P, S⟩ pts shards present =
      Except.ok (data ++ List.replicate (D * S - data.length) 0) := by
  have hEnc := encode_ok D P S pts data hD hS hlen hle
  rw [henc] at hEnc
  have hshards := Except.ok.inj hEnc
  subst hshards
  set dsh := (List.range D).map (fun i => padTo S ((data.drop (i * S)).take S))
    with hdshdef
  set psh := (List.range P).map (fun i => (List.range S).map (fun j =>
    lagEvalList ((List.range D).map pts)
      ((List.range D).map (fun k => (dsh.getD k []).getD j 0))
      (pts (D + i)))) with hpshdef
  have hdshlen : dsh.length = D := by rw [hdshdef]; simp
  have hpshlen : psh.length = P := by rw [hpshdef]; simp
  have htot : ((dsh ++ psh).map some).length = D + P := by
    simp [hdshlen, hpshlen]
  have hdatashard : ∀ k, k < D →
      dsh.getD k [] = padTo S ((data.drop (k * S)).take S) := by
    intro k hk
    rw [hdshdef]
    exact getD_map_range _ [] D k hk
  have hdlen2 : ∀ k, k < D → (dsh.getD k []).length = S := by
    intro k hk
    rw [hdatashard k hk]
    exact padTo_length S _ (by rw [List.length_take]; omega)
  have hpshard : ∀ i, i < P → psh.getD i [] = (List.range S).map (fun j =>
      lagEvalList ((List.range D).map pts)
        ((List.range D).map (fun k => (dsh.getD k []).getD j 0))
        (pts (D + i))) := by
    intro i hi
    rw [hpshdef]
    exact getD_map_range _ [] P i hi
  have happlen : ∀ i, i < D + P → ((dsh ++ psh).getD i []).length = S := by
    intro i hi
    by_cases hiD : i < D
    · rw [List.getD_append _ _ _ _ (by rw [hdshlen]; exact hiD)]
      exact hdlen2 i hiD
    · push_neg at hiD
      rw [List.getD_append_right _ _ _ _ (by rw [hdshlen]; omega), hdshlen,
        hpshard (i - D) (by omega)]
      simp
  have hgetsome : ∀ i, i < D + P →
      ((dsh ++ psh).map some).getD i none = some ((dsh ++ psh).getD i []) := by
    intro i hi
    have hlt : i < (dsh ++ psh).length := by
      rw [List.length_append, hdshlen, hpshlen]
      omega
    rw [getD_map_lt some (dsh ++ psh) i none hlt]
    congr 1
    rw [List.getD_eq_getElem _ [] hlt]
    rfl
  have hinjD : Set.InjOn pts ↑(Finset.range D) := by
    intro a ha b hb heq
    simp only [Finset.coe_range, Set.mem_Iio] at ha hb
    exact hinj a (by omega) b (by omega) heq
  set q := fun j => Lagrange.interpolate (Finset.range D) pts
    (fun k => (dsh.getD k []).getD j 0) with hqdef
  have hnode : ∀ k, k < D → ∀ j : Nat,
      Polynomial.eval (pts k) (q j) = (dsh.getD k []).getD j 0 := by
    intro k hk j
    rw [hqdef]
    exact Lagrange.eval_interpolate_at_node _ hinjD (by simp [hk])
  have hdeg : ∀ j : Nat, (q j).degree < (D : WithBot Nat) := by
    intro j
    rw [hqdef]
    have h := Lagrange.degree_interpolate_lt
      (fun k => (dsh.getD k []).getD j 0) hinjD
    rwa [Finset.card_range] at h
  have hval : ∀ i, i < D + P → ∀ j, j < S →
      ((dsh ++ psh).getD i []).getD j 0 = Polynomial.eval (pts i) (q j) := by
    intro i hi j hj
    by_cases hiD : i < D
    · rw [List.getD_append _ _ _ _ (by rw [hdshlen]; exact hiD)]
      exact (hnode i hiD j).symm
    · push_neg at hiD
      rw [List.getD_append_right _ _ _ _ (by rw [hdshlen]; omega), hdshlen,
        hpshard (i - D) (by omega), getD_map_range _ 0 S j hj,
        show D + (i - D) = i by omega]
      apply lagEvalList_interp
      · exact (List.nodup_map_iff_inj_on (List.nodup_range D)).mpr
          (fun x hx y hy heq => hinj x (by simp at hx; omega) y
            (by simp at hy; omega) heq)
      · rw [List.length_map, List.length_range]
        exact hdeg j
      · intro i2 hi2
        rw [List.length_map, List.length_range] at hi2
        rw [getD_map_range pts 0 D i2 hi2, getD_map_range _ 0 D i2 hi2]
        exact (hnode i2 hi2 j).symm
  -- evaluate the decoder
  simp only [FEC.Decode]
  rw [htot]
  rw [if_neg (by omega), if_neg (by omega), if_neg (by omega)]
  have hcnt := countTrue present
  rw [hplen] at hcnt
  have hex1 : ∃ i1, i1 ∈ List.range (D + P) ∧ present.getD i1 false = true := by
    have hpos : 0 < ((List.range (D + P)).filter
        (fun i => present.getD i false)).length := by omega
    obtain ⟨i1, hi1⟩ := List.length_pos_iff_exists_mem.mp hpos
    have h2 := List.mem_filter.mp hi1
    exact ⟨i1, h2.1, h2.2⟩
  have hpred : ∀ i, i < D + P → present.getD i false = true →
      (present.getD i false && (((dsh ++ psh).map some).getD i none).isSome &&
        decide (0 < ((((dsh ++ psh).map some).getD i none).getD []).length)) =
        true := by
    intro i hi hp
    rw [hgetsome i hi]
    simp only [hp, Option.isSome_some, Bool.and_self, Option.getD_some,
      Bool.true_and, decide_eq_true_eq]
    rw [happlen i hi]
    exact hS
  have hfindSome : ((List.range (D + P)).find? (fun i =>
      present.getD i false && (((dsh ++ psh).map some).getD i none).isSome &&
      decide (0 < ((((dsh ++ psh).map some).getD i none).getD []).length))).isSome := by
    obtain ⟨i1, hmem, hp1⟩ := hex1
    exact List.find?_isSome.mpr ⟨i1, hmem, hpred i1 (by simpa using hmem) hp1⟩
  obtain ⟨i0, hfind⟩ := Option.isSome_iff_exists.mp hfindSome
  rw [hfind]
  simp only []
  have hmem0 : i0 < D + P := by
    have := List.mem_of_find?_eq_some hfind
    simpa using this
  rw [hgetsome i0 hmem0]
  simp only [Option.getD_some]
  simp only [happlen i0 hmem0]
  have hany : ((List.range (D + P)).any (fun i =>
      present.getD i false && (((dsh ++ psh).map some).getD i none).isSome &&
      decide (((((dsh ++ psh).map some).getD i none).getD []).length ≠ S))) =
      false := by
    rw [List.any_eq_false]
    intro i hi
    have hilt : i < D + P := by simpa using hi
    rw [hgetsome i hilt]
    simp only [Option.isSome_some, Option.getD_some, Bool.and_eq_true,
      decide_eq_true_eq, not_and]
    intro _ h2
    exact h2 (happlen i hilt)
  rw [if_neg (by rw [hany]; simp)]
  -- the reconstruction
  set chosen := ((List.range (D + P)).filter
    (fun i => present.getD i false)).take D with hchdef
  have hchlen : chosen.length = D := by
    rw [hchdef, List.length_take]
    omega
  have hchmem : ∀ s ∈ chosen, s < D + P ∧ present.getD s false = true := by
    intro s hs
    have h1 := List.mem_of_mem_take hs
    have h2 := List.mem_filter.mp h1
    exact ⟨by simpa using h2.1, h2.2⟩
  have hchnodup : chosen.Nodup :=
    List.Nodup.sublist (List.take_sublist _ _)
      (List.Nodup.sublist (List.filter_sublist _) (List.nodup_range _))
  have hfinal : (List.range D).map (fun k =>
      if present.getD k false then (((dsh ++ psh).map some).getD k none).getD []
      else (List.range S).map (fun j => lagEvalList (chosen.map pts)
        (chosen.map (fun s => ((((dsh ++ psh).map some).getD s none).getD []).getD j 0))
        (pts k))) = dsh := by
    rw [hdshdef]
    refine List.map_eq_map_iff.mpr fun k hk => ?_
    have hkD : k < D := by simpa using hk
    by_cases hpk : present.getD k false
    · rw [if_pos hpk, hgetsome k (by omega)]
      simp only [Option.getD_some]
      rw [List.getD_append _ _ _ _ (by rw [hdshlen]; exact hkD)]
      exact hdatashard k hkD
    · rw [if_neg hpk]
      refine List.ext_getElem ?_ ?_
      · rw [List.length_map, List.length_range]
        exact (padTo_length S _ (by rw [List.length_take]; omega)).symm
      · intro j h1 h2
        rw [List.length_map, List.length_range] at h1
        rw [List.getElem_map, List.getElem_range]
        have hstep : lagEvalList (chosen.map pts)
            (chosen.map (fun s =>
              ((((dsh ++ psh).map some).getD s none).getD []).getD j 0))
            (pts k) = Polynomial.eval (pts k) (q j) := by
          apply lagEvalList_interp
          · exact (List.nodup_map_iff_inj_on hchnodup).mpr
              (fun x hx y hy heq => hinj x (hchmem x hx).1 y (hchmem y hy).1 heq)
          · rw [List.length_map, hchlen]
            exact hdeg j
          · intro i2 hi2
            rw [List.length_map] at hi2
            rw [getD_map_lt pts chosen i2 0 hi2, getD_map_lt _ chosen i2 0 hi2]
            have hsmem := hchmem (chosen.get ⟨i2, hi2⟩) (chosen.get_mem _ _)
            set s0 := chosen.get ⟨i2, hi2⟩ with hs0
            rw [hgetsome s0 hsmem.1]
            simp only [Option.getD_some]
            exact hval s0 hsmem.1 j h1
        rw [hstep, hnode k hkD j,
          ← List.getD_eq_getElem (padTo S ((data.drop (k * S)).take S)) 0 h2,
          ← hdatashard k hkD]
  rw [hfinal, hdshdef]
  rw [flatten_chunks S D data hle]

/-- Counterexample to claim C1 as stated: with `D = 1, P = 1, S = 2` and the
1-byte payload `[1]`, `Encode` pads the block to `D·S = 2` places, and
`Decode` with no shard lost at all returns the padded block `[1, 0]`, which
is not the input payload `[1]`. -/
theorem claim_C1_counterexample :
    FEC.Encode ⟨1, 1, 2⟩ (fun n => (n : ZMod 2)) [1] =
      Except.ok [some [1, 0], some [1, 0]] ∧
    FEC.Decode ⟨1, 1, 2⟩ (fun n => (n : ZMod 2)) [some [1, 0], some [1, 0]]
      [true, true] = Except.ok [1, 0] ∧
    ([1, 0] : List (ZMod 2)) ≠ [1] :=
  ⟨by decide, by decide, by decide⟩

theorem claim_C1_decode_inverts_encode_witness :
    FEC.Decode ⟨1, 1, 1⟩ (fun n => (n : ZMod 2)) [some [1], some [1]]
        [true, false] =
      Except.ok ([1] ++ List.replicate (1 * 1 - ([1] : List (ZMod 2)).length) 0) :=
  claim_C1_decode_inverts_encode 1 1 1 (fun n => (n : ZMod 2)) (by decide) (by decide)
    (by decide) (by decide) [1] (by decide) (by decide) [true, false] (by decide)
    (by decide) [some [1], some [1]] (by decide)
